import Mathlib

/-!
# Verification of the `radicle-fetch` replication core

A shallow embedding of the parts of `radicle-fetch` that the specification's
claims speak about, together with theorems settling each claim:

* `gix/odb.rs` — the object store's ancestry walk (`Odb::is_in_ancestry_path`);
* `gix/refdb.rs` — the transactional reference database (`Refdb::update`,
  `direct_edit`, `symbolic_edit`, prune edits);
* `gix/refdb/mem.rs` — the in-memory shadow refdb and its prefix scan;
* `refs.rs` — parsing and rendering of namespaced reference names;
* `transport.rs` / `transport/ls_refs.rs` — the ls-refs argument assembly;
* `stage.rs` — the `Clone`, `Fetch` (via `verification_refs`) and `Refs`
  stages.

Object ids are abstract (`Oid := Nat`); SHA-1 hashing plays no role in the
claims.  Public keys are identified with their canonical multibase text form
(the base58btc encoding is canonical, so parsing is modelled as validation of
the string).  Reference names are lists of path components; rendering joins
them with `/`, mirroring the textual form the code compares with
`str::starts_with`.  Reflog metadata (messages, force flags, timestamps) is
not modelled: it has no effect on any claimed behaviour.
-/

namespace Heartwood

/-- Abstract Git object id (a 20-byte SHA-1 in the source). -/
abbrev Oid := Nat

/-- A public key, identified with its canonical textual (multibase) form. -/
abbrev PK := String

/-- A fully qualified reference name, as its list of `/`-separated components. -/
abbrev RefName := List String

/-- Render a component list to its textual path form (components joined by
`/`), the form the source compares with `str::starts_with`. -/
def renderPath : RefName → String
  | [] => ""
  | [c] => c
  | c :: rest => c ++ "/" ++ renderPath rest

/-- String prefix test, as `str::starts_with` (byte prefix; on valid UTF-8
this coincides with character-list prefix). -/
def strPrefix (p s : String) : Bool := p.toList.isPrefixOf s.toList

/-! ## Object store (`gix/odb.rs`)

The store maps present object ids to their commit-parent lists.  Claims about
ancestry only involve commits, so every present object is modelled as a
commit together with its parents. -/

/-- The loose object store: present objects with their commit parents. -/
structure Odb where
  objects : List (Oid × List Oid)
deriving Repr

/-- `Store::contains`. -/
def Odb.contains (o : Odb) (x : Oid) : Bool := (o.objects.lookup x).isSome

/-- Parent list of a present object (`CommitRefIter` parent extraction). -/
def Odb.parents (o : Odb) (x : Oid) : Option (List Oid) := o.objects.lookup x

/-- Every parent id mentioned by any present object. -/
def Odb.allParents (o : Odb) : List Oid := (o.objects.map Prod.snd).flatten

/-- A store is closed when every parent of a present object is itself
present (no missing intermediate objects). -/
def Odb.closed (o : Odb) : Bool :=
  o.objects.all fun e => e.2.all fun p => o.contains p

/-- Errors of the ancestry walk (`odb::error::Revwalk`).  `fuelExhausted` is
an artefact of the embedding; it is proved unreachable for the fuel used. -/
inductive WalkErr where
  | missingObject (x : Oid)
  | fuelExhausted
deriving Repr, DecidableEq

/-- One hash-set insertion round of `gix_traverse::commit::Ancestors`:
push each parent that has not been seen, recording it as seen. -/
def pushParents (seen queue : List Oid) : List Oid → List Oid × List Oid
  | [] => (seen, queue)
  | p :: ps =>
    if p ∈ seen then pushParents seen queue ps
    else pushParents (seen ++ [p]) (queue ++ [p]) ps

/-- The breadth-first ancestor walk of `is_in_ancestry_path`: pop an id,
look it up (a missing object is an error), return `true` when the popped id
is `old`, otherwise enqueue its unseen parents. -/
def walk (o : Odb) (old : Oid) : List Oid → List Oid → Nat → Except WalkErr Bool
  | [], _, _ => .ok false
  | _ :: _, _, 0 => .error .fuelExhausted
  | x :: queue, seen, fuel + 1 =>
    match o.parents x with
    | none => .error (.missingObject x)
    | some ps =>
      if x = old then .ok true
      else
        let (seen', queue') := pushParents seen queue ps
        walk o old queue' seen' fuel

/-- `Odb::is_in_ancestry_path(new, old)` (`gix/odb.rs:63-97`): `true` when
`new == old`; `false` when either object is absent; otherwise walk the
commit-parent closure of `new` looking for `old`. -/
def Odb.isInAncestryPath (o : Odb) (new old : Oid) : Except WalkErr Bool :=
  if new = old then .ok true
  else if ¬ o.contains new ∨ ¬ o.contains old then .ok false
  else walk o old [new] [new] (o.allParents.length + 2)

/-- `old` lies in the commit-parent closure of `new` (including `new`). -/
inductive Reach (o : Odb) : Oid → Oid → Prop
  | refl (x : Oid) : Reach o x x
  | step {x y z : Oid} {ps : List Oid} :
      o.parents x = some ps → y ∈ ps → Reach o y z → Reach o x z

/-! ## Reference database (`gix/refdb.rs`)

The snapshot is an association list from fully qualified (namespaced) names
to targets.  `Policy`, `Update`, `SymrefTarget`, `Updated` and `Applied`
follow `gix/refdb/update.rs`; edits follow `gix_ref::transaction::RefEdit`
restricted to the fields the code inspects. -/

/-- `refdb::update::Policy`. -/
inductive Policy where
  | abort
  | reject
  | allow
deriving Repr, DecidableEq

/-- A reference target (`gix_ref::Target`): peeled oid or symbolic name. -/
inductive RTarget where
  | peeled (oid : Oid)
  | symbolic (name : RefName)
deriving Repr, DecidableEq

/-- `refdb::update::SymrefTarget`. -/
structure SymrefTarget where
  name : RefName
  target : Oid
deriving Repr, DecidableEq

/-- The `prev` of a prune: `Either<ObjectId, Qualified>`. -/
inductive Prev where
  | oid (o : Oid)
  | sym (q : RefName)
deriving Repr, DecidableEq

/-- `refdb::update::Update`. -/
inductive Update where
  | direct (name : RefName) (target : Oid) (noFF : Policy)
  | symbolic (name : RefName) (target : SymrefTarget) (typeChange : Policy)
  | prune (name : RefName) (prev : Prev)
deriving Repr, DecidableEq

/-- `refdb::update::Updated`. -/
inductive Updated where
  | direct (name : RefName) (target : Oid)
  | symbolic (name : RefName) (target : RefName)
  | prune (name : RefName)
deriving Repr, DecidableEq

/-- Name of an `Updated` entry. -/
def Updated.name : Updated → RefName
  | .direct n _ => n
  | .symbolic n _ => n
  | .prune n => n

/-- `refdb::update::Applied`. -/
structure Applied where
  rejected : List Update
  updated : List Updated
deriving Repr, DecidableEq

/-- The reference snapshot: qualified name to target. -/
abbrev RefState := List (RefName × RTarget)

/-- `Snapshot::find`: the stored target of a name, if any. -/
def findTarget (st : RefState) (n : RefName) : Option RTarget := st.lookup n

/-- Errors of `Refdb::update` (`refdb::error::Update` together with the
transaction errors of `prepare`/`commit`). -/
inductive UErr where
  | nonFF (name : RefName) (new cur : Oid)
  | typeChange (name : RefName)
  | targetSymbolic (name : RefName)
  | peelFail (name : RefName)
  | revwalk (e : WalkErr)
  | txnExpect (name : RefName)
deriving Repr, DecidableEq

/-- Peel a target to an oid, following symbolic chains (`Snapshot::peel`).
A dangling or too-deep chain is an error. -/
def peelTarget (st : RefState) : Nat → RTarget → Except UErr Oid
  | _, .peeled o => .ok o
  | 0, .symbolic n => .error (.peelFail n)
  | fuel + 1, .symbolic n =>
    match findTarget st n with
    | none => .error (.peelFail n)
    | some t => peelTarget st fuel t

/-- `Refdb::find_snapshot`: resolve a name to its peeled oid, if present. -/
def findSnapshot (st : RefState) (n : RefName) : Except UErr (Option Oid) :=
  match findTarget st n with
  | none => .ok none
  | some t => (peelTarget st (st.length + 1) t).map some

/-- `gix_ref::transaction::PreviousValue`, restricted to the two used forms. -/
inductive PrevValue where
  | mustNotExist
  | mustExistAndMatch (t : RTarget)
deriving Repr, DecidableEq

/-- `gix_ref::transaction::Change` (reflog fields omitted: no observable
effect on the claims). -/
inductive Change where
  | update (expected : PrevValue) (newT : RTarget)
  | delete (expected : RTarget)
deriving Repr, DecidableEq

/-- `gix_ref::transaction::RefEdit`. -/
structure RefEdit where
  name : RefName
  change : Change
deriving Repr, DecidableEq

/-- `Refdb::direct_edit` (`gix/refdb.rs:282-353`): create when absent;
fast-forward when `target` descends from the current tip; otherwise apply
the non-fast-forward policy. -/
def directEdit (odb : Odb) (st : RefState) (name : RefName) (target : Oid)
    (noFF : Policy) : Except UErr (Update ⊕ List RefEdit) :=
  match findSnapshot st name with
  | .error e => .error e
  | .ok none =>
    .ok (.inr [⟨name, .update .mustNotExist (.peeled target)⟩])
  | .ok (some prev) =>
    match odb.isInAncestryPath target prev with
    | .error e => .error (.revwalk e)
    | .ok isFF =>
      if !isFF then
        match noFF with
        | .abort => .error (.nonFF name target prev)
        | .reject => .ok (.inl (.direct name target noFF))
        | .allow =>
          .ok (.inr [⟨name, .update (.mustExistAndMatch (.peeled prev)) (.peeled target)⟩])
      else
        .ok (.inr [⟨name, .update (.mustExistAndMatch (.peeled prev)) (.peeled target)⟩])

/-- `Refdb::symbolic_edit` (`gix/refdb.rs:355-477`). -/
def symbolicEdit (odb : Odb) (st : RefState) (name : RefName)
    (target : SymrefTarget) (typeChange : Policy) :
    Except UErr (Update ⊕ List RefEdit) :=
  let src := findTarget st name
  match src with
  | some (.peeled _) =>
    match typeChange with
    | .abort => .error (.typeChange name)
    | .reject => .ok (.inl (.symbolic name target typeChange))
    | .allow => symbolicEditRest odb st name target src
  | _ => symbolicEditRest odb st name target src
where
  /-- The shared tail of `symbolic_edit` (its `_ =>` arm). -/
  symbolicEditRest (odb : Odb) (st : RefState) (srcName : RefName)
      (target : SymrefTarget) (src : Option RTarget) :
      Except UErr (Update ⊕ List RefEdit) :=
    match findTarget st target.name with
    | some (.symbolic dst) => .error (.targetSymbolic dst)
    | none =>
      .ok (.inr
        [⟨target.name, .update .mustNotExist (.peeled target.target)⟩,
         ⟨srcName, .update .mustNotExist (.symbolic target.name)⟩])
    | some (.peeled dst) =>
      match (if target.target ≠ dst then odb.isInAncestryPath target.target dst
             else .ok false) with
      | .error e => .error (.revwalk e)
      | .ok isFF =>
        let ffEdits : List RefEdit :=
          if isFF then
            [⟨target.name,
              .update (.mustExistAndMatch (.peeled dst)) (.peeled target.target)⟩]
          else []
        let srcExpected : PrevValue :=
          match src with
          | some t => .mustExistAndMatch t
          | none => .mustNotExist
        .ok (.inr (ffEdits ++ [⟨srcName, .update srcExpected (.symbolic target.name)⟩]))

/-- `Refdb::to_edits` (`gix/refdb.rs:253-280`): classify one update into a
rejected update or a list of edits, or fail. -/
def toEdits (odb : Odb) (st : RefState) : Update → Except UErr (Update ⊕ List RefEdit)
  | .direct name target noFF => directEdit odb st name target noFF
  | .symbolic name target typeChange => symbolicEdit odb st name target typeChange
  | .prune name prev =>
    .ok (.inr [⟨name, .delete (match prev with
      | .oid o => .peeled o
      | .sym q => .symbolic q)⟩])

/-- Insert an edit into the name-keyed edit collection, replacing any edit
with the same name (`HashMap::<FullName, RefEdit>::extend`; the map's
iteration order is unspecified in the source, the insertion-ordered list
here is one admissible order). -/
def insertEdit (m : List RefEdit) (e : RefEdit) : List RefEdit :=
  if m.any (fun e' => e'.name = e.name) then
    m.map (fun e' => if e'.name = e.name then e else e')
  else m ++ [e]

/-- One step of the fold of `Refdb::update` (`gix/refdb.rs:199-215`):
classify an update, silently dropping an error (`filter_map(|r| r.ok())`),
pushing a rejection, or keying the produced edits by name. -/
def classifyStep (odb : Odb) (st : RefState)
    (acc : List Update × List RefEdit) (u : Update) : List Update × List RefEdit :=
  match toEdits odb st u with
  | .error _ => acc
  | .ok (.inl r) => (acc.1 ++ [r], acc.2)
  | .ok (.inr es) => (acc.1, es.foldl insertEdit acc.2)

/-- The whole fold of `Refdb::update`: rejected updates in order, and the
name-keyed edit collection. -/
def classifyAll (odb : Odb) (st : RefState) (us : List Update) :
    List Update × List RefEdit :=
  us.foldl (classifyStep odb st) ([], [])

/-- All edits emitted (in order) for a list of updates: the concatenation of
the `Right` results of `to_edits`. -/
def emittedEdits (odb : Odb) (st : RefState) (us : List Update) : List RefEdit :=
  (us.filterMap (fun u =>
    match toEdits odb st u with
    | .ok (.inr es) => some es
    | _ => none)).flatten

/-- Does the snapshot satisfy an edit's expectation
(`transaction::prepare`)? -/
def checkEdit (st : RefState) (e : RefEdit) : Bool :=
  match e.change with
  | .update expected _ =>
    match expected with
    | .mustNotExist => (findTarget st e.name).isNone
    | .mustExistAndMatch t => findTarget st e.name = some t
  | .delete expected => findTarget st e.name = some expected

/-- Apply one committed edit to the snapshot. -/
def applyEdit (st : RefState) (e : RefEdit) : RefState :=
  match e.change with
  | .update _ newT =>
    if st.any (fun kv => kv.1 = e.name) then
      st.map (fun kv => if kv.1 = e.name then (kv.1, newT) else kv)
    else st ++ [(e.name, newT)]
  | .delete _ => st.filter (fun kv => kv.1 ≠ e.name)

/-- Render a committed edit into an `Updated` entry
(`gix/refdb.rs:228-240`). -/
def renderEdit (e : RefEdit) : Updated :=
  match e.change with
  | .update _ (.peeled target) => .direct e.name target
  | .update _ (.symbolic target) => .symbolic e.name target
  | .delete _ => .prune e.name

/-- `Refdb::update` (`gix/refdb.rs:195-251`): classify all updates (errors
from `to_edits` are discarded by `filter_map(|r| r.ok())`), then run the
keyed edits as one transaction whose expectations are checked against the
pre-transaction snapshot, returning the applied result and new snapshot. -/
def refdbUpdate (odb : Odb) (st : RefState) (us : List Update) :
    Except UErr (Applied × RefState) :=
  let ce := classifyAll odb st us
  match ce.2.find? (fun e => ¬ checkEdit st e) with
  | some e => .error (.txnExpect e.name)
  | none =>
    .ok (⟨ce.1, ce.2.map renderEdit⟩, ce.2.foldl applyEdit st)

/-! ## In-memory shadow refdb (`gix/refdb/mem.rs`)

The shadow keys refs by qualified name.  Its `Scan` iterator receives the
underlying `HashMap` iteration order, which is unspecified; the model takes
that order as an explicit entry list. -/

/-- A ref yielded by the shadow's scan. -/
structure MemRef where
  name : RefName
  target : Oid
deriving Repr, DecidableEq

/-- The `Iterator for Scan` loop of `mem.rs:77-101` under a prefix: yield
an entry when its name starts with the prefix, and otherwise return `None`,
which ends the iteration. -/
def memScanGo (pfx : String) : List (RefName × Oid) → List MemRef
  | [] => []
  | (n, t) :: rest =>
    if strPrefix pfx (renderPath n) then ⟨n, t⟩ :: memScanGo pfx rest
    else []

/-- `InMemory::scan` (`mem.rs:15-20`): scan the stored entries, in the
given underlying iteration order, through the prefix filter. -/
def memScan (entries : List (RefName × Oid)) (pfx : Option String) : List MemRef :=
  match pfx with
  | none => entries.map (fun nt => ⟨nt.1, nt.2⟩)
  | some p => memScanGo p entries

/-! ## Namespaced reference names (`refs.rs`) -/

/-- `refs::Special`. -/
inductive Special where
  | id
  | signedRefs
deriving Repr, DecidableEq

/-- `refs::Refname`: a remote namespace plus a special or ordinary
qualified suffix. -/
structure Refname where
  remote : PK
  suffix : Special ⊕ RefName
deriving Repr, DecidableEq

/-- Validity of a public key's textual form (`PublicKey::from_str`): the
canonical multibase text of an Ed25519 key, 48 characters starting with
`z`.  The base58btc encoding is canonical, so the key is identified with
its text. -/
def isValidKey (s : PK) : Bool :=
  match s.toList with
  | 'z' :: rest => rest.length == 47
  | _ => false

/-- Parse errors of `refs::Refname` (`refs::Error`). -/
inductive RefnameErr where
  | notQualified
  | notNamespaced
  | publicKey
  | malformedSuffix
deriving Repr, DecidableEq

/-- A component list is a qualified refname: `refs/<category>/<head>/...`
(at least three components, starting with `refs`). -/
def isQualifiedName : RefName → Bool
  | "refs" :: _ :: _ :: _ => true
  | _ => false

/-- The component form of a `Refname` suffix (`Refname::to_qualified`). -/
def suffixComponents : Special ⊕ RefName → RefName
  | .inl .id => ["refs", "rad", "id"]
  | .inl .signedRefs => ["refs", "rad", "sigrefs"]
  | .inr q => q

/-- `Refname::namespaced`: prepend `refs/namespaces/<remote>` to the
qualified suffix. -/
def Refname.namespaced (r : Refname) : RefName :=
  "refs" :: "namespaces" :: r.remote :: suffixComponents r.suffix

/-- `Refname::rad_id`. -/
def radId (remote : PK) : RefName := Refname.namespaced ⟨remote, .inl .id⟩

/-- `Refname::rad_sigrefs`. -/
def radSigrefs (remote : PK) : RefName := Refname.namespaced ⟨remote, .inl .signedRefs⟩

/-- `TryFrom<Qualified> for Refname` (`refs.rs:145-177`), starting from the
component list of a raw refname (`TryFrom<RefString>` first requires a
qualified name).  When the suffix category is exactly `rad`, the single
following segment selects `id` or `sigrefs`; anything else under `rad` is a
malformed suffix. -/
def parseRefname (cs : RefName) : Except RefnameErr Refname :=
  if ¬ isQualifiedName cs then .error .notQualified
  else
    match cs with
    | "refs" :: "namespaces" :: pk :: rest =>
      if ¬ isQualifiedName rest then .error .notNamespaced
      else if ¬ isValidKey pk then .error .publicKey
      else
        match rest with
        | "refs" :: "rad" :: tail =>
          match tail with
          | ["id"] => .ok ⟨pk, .inl .id⟩
          | ["sigrefs"] => .ok ⟨pk, .inl .signedRefs⟩
          | _ => .error .malformedSuffix
        | _ => .ok ⟨pk, .inr rest⟩
    | _ => .error .notNamespaced

/-! ## Transport ls-refs (`transport.rs:62-81`, `transport/ls_refs.rs:111-145`) -/

/-- Insert into a sorted list of strings. -/
def insertSorted (x : String) : List String → List String
  | [] => [x]
  | y :: ys => if x ≤ y then x :: y :: ys else y :: insertSorted x ys

/-- `Vec::sort` on strings (modelled by insertion sort). -/
def sortStr (l : List String) : List String := l.foldr insertSorted []

/-- `Vec::dedup`: remove consecutive duplicates. -/
def dedupAdj : List String → List String
  | [] => []
  | [x] => [x]
  | x :: y :: rest => if x = y then dedupAdj (y :: rest) else x :: dedupAdj (y :: rest)

/-- The argument list built by `ls_refs::run` (`ls_refs.rs:114-125` plus
`prepare_ls_refs`): `symrefs` and `peel` always, `unborn` when advertised,
then one `ref-prefix <p>` per prefix. -/
def lsRefsArgs (unborn : Bool) (prefixes : List String) : List String :=
  ["symrefs", "peel"] ++ (if unborn then ["unborn"] else [])
    ++ prefixes.map (fun p => "ref-prefix " ++ p)

/-- The arguments actually passed to `conn.invoke`
(`ls_refs.rs:131-135`): `args.is_empty().then_some(args.into_iter())`, i.e.
`some args` exactly when `args` is empty. -/
def lsRefsSentArgs (unborn : Bool) (prefixes : List String) : Option (List String) :=
  let args := lsRefsArgs unborn prefixes
  if args.isEmpty then some args else none

/-- `Transport::ls_refs` (`transport.rs:62-81`): sort and deduplicate the
prefixes, then run `ls_refs::run`; the result is the argument list passed to
the wire request. -/
def transportLsRefsSent (unborn : Bool) (prefixes : List String) : Option (List String) :=
  lsRefsSentArgs unborn (dedupAdj (sortStr prefixes))

/-! ## Stages (`stage.rs`) -/

/-- `refs::ReceivedRef`. -/
structure ReceivedRef where
  tip : Oid
  name : Refname
deriving Repr, DecidableEq

/-- `ReceivedRef::as_verification_ref_update` (`refs.rs:197-209`): special
refs become `Direct` updates with `no_ff = Abort`. -/
def asVerificationRefUpdate (r : ReceivedRef) : Option Update :=
  match r.name.suffix with
  | .inl _ => some (.direct r.name.namespaced r.tip .abort)
  | .inr _ => none

/-- The sorted distinct non-local remotes of a received-ref list (the key
set of the `BTreeMap` grouping in `verification_refs`). -/
def groupedRemotes (localId : PK) (refs : List ReceivedRef) : List PK :=
  dedupAdj (sortStr ((refs.filter (fun r => r.name.remote ≠ localId)).map
    (fun r => r.name.remote)))

/-- The refs of one remote, in received order (the `BTreeMap` group). -/
def groupRefs (g : PK) (refs : List ReceivedRef) : List ReceivedRef :=
  refs.filter (fun r => r.name.remote = g)

/-- The inner loop of `verification_refs` (`stage.rs:367-402`) for one
remote: a failed `rad/id` verification is fatal for a delegate and taints
(clears and stops) a non-delegate; surviving special refs become updates. -/
def remoteTips (verifies : Oid → Bool) (isDelegate : PK → Bool) (remote : PK) :
    List ReceivedRef → List Update → Except PK (List Update)
  | [], acc => .ok acc
  | r :: rest, acc =>
    match r.name.suffix with
    | .inl .id =>
      if verifies r.tip then
        remoteTips verifies isDelegate remote rest
          (acc ++ [.direct r.name.namespaced r.tip .abort])
      else if isDelegate remote then .error remote
      else .ok []
    | .inl .signedRefs =>
      remoteTips verifies isDelegate remote rest
        (acc ++ [.direct r.name.namespaced r.tip .abort])
    | .inr _ => remoteTips verifies isDelegate remote rest acc

/-- The outer loop of `verification_refs`: process each remote group in
order, concatenating the surviving updates. -/
def verifyGroups (verifies : Oid → Bool) (isDelegate : PK → Bool)
    (refs : List ReceivedRef) : List PK → Except PK (List Update)
  | [] => .ok []
  | g :: gs =>
    match remoteTips verifies isDelegate g (groupRefs g refs) [] with
    | .error e => .error e
    | .ok tips =>
      match verifyGroups verifies isDelegate refs gs with
      | .error e => .error e
      | .ok rest => .ok (tips ++ rest)

/-- `verification_refs` (`stage.rs:338-408`): group the non-local received
refs by remote and collect each group's verification updates.  `verifies`
abstracts `Identities::verified` succeeding on an id tip. -/
def verificationRefs (localId : PK) (verifies : Oid → Bool)
    (isDelegate : PK → Bool) (refs : List ReceivedRef) : Except PK (List Update) :=
  verifyGroups verifies isDelegate refs (groupedRemotes localId refs)

/-- The remote namespace a full ref name lives under, if any. -/
def nameNamespace : RefName → Option PK
  | "refs" :: "namespaces" :: pk :: _ => some pk
  | _ => none

/-- The remote namespace an update's ref name lives under, if any. -/
def updateNamespace : Update → Option PK
  | .direct n _ _ => nameNamespace n
  | .symbolic n _ _ => nameNamespace n
  | .prune n _ => nameNamespace n

/-! ### The `Refs` stage (`stage.rs:278-335`) -/

/-- Prepend `refs/namespaces/<remote>` to a qualified suffix
(`Refname::remote(..).namespaced()`). -/
def nsName (remote : PK) (suffix : RefName) : RefName :=
  "refs" :: "namespaces" :: remote :: suffix

/-- `Refdb::scan` under a path prefix: the stored refs whose name extends
the prefix's components. -/
def stScan (st : RefState) (pfx : List String) : List (RefName × RTarget) :=
  st.filter (fun kv => pfx.isPrefixOf kv.1)

/-- `Qualified::to_namespaced`: succeeds on `refs/namespaces/<ns>/<rest>`
with `rest` qualified. -/
def toNamespaced? (n : RefName) : Option RefName :=
  match n with
  | "refs" :: "namespaces" :: _ :: rest => if isQualifiedName rest then some n else none
  | _ => none

/-- One remote's body of `Refs::prepare` (`stage.rs:293-332`): stage every
signed ref as a `Direct`/`Allow` update, then prune every scanned
namespaced ref that neither starts (textually) with the computed
`refs/namespaces/<remote>/rad` prefix nor appears in the signed set. -/
def prepareRemote (st : RefState) (remote : PK) (sigrefs : List (RefName × Oid)) :
    List Update :=
  let signed := sigrefs.map (fun e => nsName remote e.1)
  let direct := sigrefs.map (fun e => Update.direct (nsName remote e.1) e.2 .allow)
  let pfx : List String := ["refs", "namespaces", remote]
  let pfxRad := pfx ++ ["rad"]
  let prunes := (stScan st pfx).foldl
    (fun acc kv =>
      match toNamespaced? kv.1 with
      | none => acc
      | some ns =>
        if strPrefix (renderPath pfxRad) (renderPath ns) then acc
        else if ns ∈ signed then acc
        else acc ++ [Update.prune ns (match kv.2 with
          | .peeled o => .oid o
          | .symbolic q => .sym q)])
    []
  direct ++ prunes

/-- `Refs::prepare` (`stage.rs:278-335`): the staged updates over every
remote of the signed-refs manifest set, in manifest order. -/
def refsPrepare (st : RefState) (trusted : List (PK × List (RefName × Oid))) :
    List Update :=
  (trusted.map (fun e => prepareRemote st e.1 e.2)).flatten

/-! ### The `Clone` stage (`stage.rs:100-161`) and its driver step
(`state.rs:68-118`) -/

/-- Stage errors surfaced by a driver step (`stage::error`). -/
inductive StageErr where
  | layout (missing : List RefName)
  | verification (remote : PK)
deriving Repr, DecidableEq

/-- `ensure_refs` (`stage.rs:418-435`): the layout check is skipped
entirely when no refs were received. -/
def ensureRefs (required wants : List RefName) : Except StageErr Unit :=
  if wants.isEmpty then .ok ()
  else
    let diff := required.filter (fun r => r ∉ wants)
    if diff.isEmpty then .ok () else .error (.layout diff)

/-- `Clone::pre_validate` (`stage.rs:107-114`): both special refs of the
clone remote must appear among the received refs. -/
def clonePreValidate (remote : PK) (refs : List ReceivedRef) : Except StageErr Unit :=
  ensureRefs [radId remote, radSigrefs remote] (refs.map (fun r => r.name.namespaced))

/-- `Clone::ref_filter` (`stage.rs:120-129`): keep only advertised refs
that parse and are special. -/
def cloneRefFilter (raw : List (RefName × Oid)) : List ReceivedRef :=
  raw.foldl
    (fun acc e =>
      match parseRefname e.1 with
      | .ok rn =>
        match rn.suffix with
        | .inl _ => acc ++ [⟨e.2, rn⟩]
        | .inr _ => acc
      | .error _ => acc)
    []

/-- Insert into the id-tip map, replacing an existing entry. -/
def insertAssoc (m : List (PK × Oid)) (k : PK) (v : Oid) : List (PK × Oid) :=
  if m.any (fun kv => kv.1 = k) then
    m.map (fun kv => if kv.1 = k then (kv.1, v) else kv)
  else m ++ [(k, v)]

/-- The id-tip recording loop of `FetchState::step` (`state.rs:100-112`),
restricted to `rad/id` tips. -/
def recordIdTips (refs : List ReceivedRef) : List (PK × Oid) :=
  refs.foldl
    (fun m r =>
      match r.name.suffix with
      | .inl .id => insertAssoc m r.name.remote r.tip
      | _ => m)
    []

/-- `Clone::prepare` (`stage.rs:131-161`).  The outer `none` models the
`.expect("ensured we got rad/id ref")` panic when the clone remote has no
recorded id tip.  `delegatesOf` abstracts `Identities::verified` (`none` is
a verification error, which is fatal). -/
def clonePrepare (delegatesOf : Oid → Option (List PK)) (remote : PK)
    (idTips : List (PK × Oid)) (refs : List ReceivedRef) :
    Option (Except StageErr (List Update)) :=
  match idTips.lookup remote with
  | none => none
  | some tip =>
    match delegatesOf tip with
    | none => some (.error (.verification remote))
    | some delegates =>
      some (.ok (if remote ∈ delegates then refs.filterMap asVerificationRefUpdate else []))

/-- One driver step (`FetchState::step`, `state.rs:68-118`) of the `Clone`
stage over an advertised ref list: filter, pre-validate, record id tips,
then prepare; `none` is a panic, `some (.error _)` a reported failure. -/
def cloneStepOutcome (delegatesOf : Oid → Option (List PK)) (remote : PK)
    (raw : List (RefName × Oid)) : Option (Except StageErr (List Update)) :=
  let refs := cloneRefFilter raw
  match clonePreValidate remote refs with
  | .error e => some (.error e)
  | .ok _ => clonePrepare delegatesOf remote (recordIdTips refs) refs

/-- Namespace of an applied entry's name. -/
def updatedNamespace (e : Updated) : Option PK := nameNamespace e.name

/-- An update that `Refdb::update` locally rejects against the given
snapshot: a `Direct` non-fast-forward with policy `Reject`, or a `Symbolic`
update with policy `Reject` whose source currently is a direct ref. -/
def RejectsUpdate (odb : Odb) (st : RefState) : Update → Prop
  | .direct n t p =>
    p = .reject ∧ ∃ prev, findSnapshot st n = .ok (some prev)
      ∧ odb.isInAncestryPath t prev = .ok false
  | .symbolic n _ p => p = .reject ∧ ∃ o, findTarget st n = some (.peeled o)
  | .prune _ _ => False

/-! ## Concrete instances used by the counterexample and divergence
theorems -/

/-- An object store with three unrelated root commits. -/
def odbRoots : Odb := ⟨[(1, []), (2, []), (3, [])]⟩

/-- A namespaced branch name under remote `zA`. -/
def nMain : RefName := ["refs", "namespaces", "zA", "refs", "heads", "main"]

/-- A second namespaced branch name under remote `zA`. -/
def nDev : RefName := ["refs", "namespaces", "zA", "refs", "heads", "dev"]

/-- The namespaced `rad/id` ref of remote `zB`. -/
def nRadIdB : RefName := ["refs", "namespaces", "zB", "refs", "rad", "id"]

/-- A concrete valid public key in canonical text form. -/
def pkW : PK := "z6MkhaXgBZDvotDkL5257faiztiGiC2QtKLGpbnnEGta2doK"

/-! ## Theorems -/

/-- C1.  The claim fails on the code: in `Refdb::update`
(`gix/refdb.rs:199-202`) the results of `to_edits` pass through
`filter_map(|r| r.ok())`, so the `NonFF` error that `direct_edit` raises
for a `Direct`/`Abort` non-fast-forward update is silently discarded
instead of failing the transaction.  On a batch holding such an update
(`main` currently at commit 1, asked to move to the unrelated commit 2)
together with an unrelated create, `update` returns `Ok`: the aborting
update is neither applied nor rejected, and the other ref in the batch is
still modified. -/
theorem c1_abort_nonff_not_fatal :
    refdbUpdate odbRoots [(nMain, .peeled 1)]
        [.direct nMain 2 .abort, .direct nDev 3 .allow]
      = .ok (⟨[], [.direct nDev 3]⟩,
          [(nMain, .peeled 1), (nDev, .peeled 3)])
    ∧ directEdit odbRoots [(nMain, .peeled 1)] nMain 2 .abort
      = .error (.nonFF nMain 2 1) := by
  constructor <;> rfl

/-- C2.  The claim fails on the code: `Refs::prepare` builds its prune
guard from `prefix.join(component!("rad"))` (`stage.rs:309`), i.e.
`refs/namespaces/<remote>/rad`, but stored rad refs live at
`refs/namespaces/<remote>/refs/rad/...`, so the `starts_with` guard never
matches and a stored `rad/id` ref that is not in the signed set is pruned.
With an empty signed manifest for remote `zB` and a stored
`refs/namespaces/zB/refs/rad/id`, prepare emits exactly that Prune. -/
theorem c2_rad_ref_pruned :
    refsPrepare [(nRadIdB, .peeled 7)] [("zB", [])]
      = [.prune nRadIdB (.oid 7)]
    ∧ strPrefix (renderPath ["refs", "namespaces", "zB", "rad"]) (renderPath nRadIdB)
      = false := by
  constructor <;> rfl

/-- C3.  The claim fails on the code: `ls_refs::run` passes its argument
list to `conn.invoke` as `args.is_empty().then_some(args.into_iter())`
(`ls_refs.rs:134`), which is `Some` only when the list is empty — and it
never is, because `symrefs` and `peel` are always pushed first.  So for
every prefix list no arguments at all are sent, even though the list the
code assembles does contain the `ref-prefix` entries the claim describes. -/
theorem c3_ls_refs_args_never_sent :
    (∀ (unborn : Bool) (prefixes : List String),
      transportLsRefsSent unborn prefixes = none)
    ∧ lsRefsArgs false ["refs/rad/id"]
      = ["symrefs", "peel", "ref-prefix refs/rad/id"] := by
  refine ⟨fun unborn prefixes => ?_, rfl⟩
  simp [transportLsRefsSent, lsRefsSentArgs, lsRefsArgs]

/-- C5 counterexample.  The claim asserts that the call returns false
whenever either object is absent from the local store, but
`is_in_ancestry_path` checks `new == old` first (`gix/odb.rs:71-73`): with
both arguments equal to an oid absent from an empty store it returns
`true`, not `false`. -/
theorem c5_absent_equal_counterexample :
    (⟨[]⟩ : Odb).isInAncestryPath 5 5 = .ok true
    ∧ (⟨[]⟩ : Odb).contains 5 = false := by
  constructor <;> rfl

/-- C6 counterexample.  The claim asserts that the i-th applied entry
corresponds to the i-th emitted edit, but `Refdb::update` keys the edits by
name in a `HashMap` (`gix/refdb.rs:206-215`): two updates creating the same
name emit two edits while only one (the later) entry appears in
`Applied.updated`, so no such pointwise correspondence exists. -/
theorem c6_order_counterexample :
    (refdbUpdate odbRoots [] [.direct nMain 1 .allow, .direct nMain 2 .allow]).toOption.map
        (fun r => r.1.updated)
      = some [.direct nMain 2]
    ∧ (emittedEdits odbRoots [] [.direct nMain 1 .allow, .direct nMain 2 .allow]).length
      = 2
    ∧ ¬ ((refdbUpdate odbRoots [] [.direct nMain 1 .allow, .direct nMain 2 .allow]).toOption.map
          (fun r => r.1.updated)
        = some ((emittedEdits odbRoots []
            [.direct nMain 1 .allow, .direct nMain 2 .allow]).map renderEdit)) := by
  refine ⟨rfl, rfl, ?_⟩
  intro h
  have h1 : (refdbUpdate odbRoots [] [.direct nMain 1 .allow, .direct nMain 2 .allow]).toOption.map
      (fun r => r.1.updated) = some [Updated.direct nMain 2] := rfl
  have h2 : (emittedEdits odbRoots []
      [.direct nMain 1 .allow, .direct nMain 2 .allow]).map renderEdit
      = [Updated.direct nMain 1, Updated.direct nMain 2] := rfl
  rw [h1, h2] at h
  simp at h

/-- C8.  The claim fails on the code: the shadow refdb's `Scan::next`
returns `None` as soon as it meets an entry whose name does not match the
prefix (`mem.rs:88-98`), ending the iteration instead of skipping the
entry.  With the underlying iteration order placing a non-matching ref
first, a stored matching ref is never produced. -/
theorem c8_scan_truncates :
    memScan [(["refs", "a"], 1), (["refs", "b"], 2)] (some "refs/b") = []
    ∧ strPrefix "refs/b" (renderPath ["refs", "b"]) = true
    ∧ (["refs", "b"], 2) ∈ [(["refs", "a"], 1), (["refs", "b"], 2)] := by
  refine ⟨rfl, rfl, by simp⟩

/-- C10.  Confirmed: when the server advertises zero refs,
`Clone::pre_validate` accepts the empty received set (`ensure_refs` skips
the layout check when `wants` is empty, `stage.rs:418-424`), no id tip is
recorded, and `Clone::prepare` then panics on the
`.expect("ensured we got rad/id ref")` lookup (`stage.rs:143-145`),
modelled as the `none` outcome, instead of returning an error. -/
theorem c10_clone_prepare_panics :
    (∀ (delegatesOf : Oid → Option (List PK)) (remote : PK),
      cloneStepOutcome delegatesOf remote [] = none)
    ∧ clonePreValidate "zB" [] = .ok ()
    ∧ recordIdTips [] = [] := by
  exact ⟨fun _ _ => rfl, rfl, rfl⟩

/-- Folding the classification step distributes over the initial rejected
list: rejections accumulate on the left while the edit collection is
insensitive to them. -/
theorem classify_shift (odb : Odb) (st : RefState) (us : List Update) :
    ∀ (r : List Update) (e : List RefEdit),
      us.foldl (classifyStep odb st) (r, e)
        = (r ++ (us.foldl (classifyStep odb st) ([], e)).1,
           (us.foldl (classifyStep odb st) ([], e)).2) := by
  induction us with
  | nil => intro r e; simp
  | cons u us ih =>
    intro r e
    rcases htoe : toEdits odb st u with err | v
    · simp only [List.foldl_cons, classifyStep, htoe]
      exact ih r e
    · rcases v with r' | es
      · simp only [List.foldl_cons, classifyStep, htoe, List.nil_append]
        rw [ih (r ++ [r']) e, ih [r'] e]
        simp
      · simp only [List.foldl_cons, classifyStep, htoe]
        exact ih r (es.foldl insertEdit e)

/-- A locally rejected update classifies to `Left` of itself
(`direct_edit`'s `Reject` arm and `symbolic_edit`'s `Reject` guard). -/
theorem toEdits_of_rejects (odb : Odb) (st : RefState) (u : Update)
    (h : RejectsUpdate odb st u) : toEdits odb st u = .ok (.inl u) := by
  cases u with
  | direct n t p =>
    obtain ⟨rfl, prev, hfind, hanc⟩ := h
    simp [toEdits, directEdit, hfind, hanc]
  | symbolic n tgt p =>
    obtain ⟨rfl, o, hfind⟩ := h
    simp [toEdits, symbolicEdit, hfind]
  | prune n prev => exact absurd h (by simp [RejectsUpdate])

/-- Rendering a committed edit keeps its ref name. -/
theorem renderEdit_name (e : RefEdit) : (renderEdit e).name = e.name := by
  rcases e with ⟨n, ch⟩
  rcases ch with ⟨_, t⟩ | _
  · rcases t with _ | _ <;> rfl
  · rfl

/-- Membership in an insertion-sorted list. -/
theorem mem_insertSorted (x y : String) (l : List String) :
    x ∈ insertSorted y l ↔ x = y ∨ x ∈ l := by
  induction l with
  | nil => simp [insertSorted]
  | cons z l ih =>
    unfold insertSorted
    by_cases h : y ≤ z
    · simp [h]
    · simp [h, ih, List.mem_cons]
      tauto

/-- Sorting does not introduce elements. -/
theorem mem_sortStr (x : String) (l : List String) : x ∈ sortStr l → x ∈ l := by
  induction l with
  | nil => simp [sortStr]
  | cons y l ih =>
    intro h
    unfold sortStr at h
    simp only [List.foldr_cons] at h
    rw [mem_insertSorted] at h
    rcases h with h | h
    · exact h ▸ List.mem_cons_self _ _
    · exact List.mem_cons_of_mem _ (ih h)

/-- Adjacent deduplication does not introduce elements. -/
theorem mem_dedupAdj (x : String) (l : List String) : x ∈ dedupAdj l → x ∈ l := by
  induction l with
  | nil => simp [dedupAdj]
  | cons y l ih =>
    intro h
    match l, h with
    | [], h => simpa [dedupAdj] using h
    | z :: l', h =>
      unfold dedupAdj at h
      split at h
      · exact List.mem_cons_of_mem _ (ih h)
      · rcases List.mem_cons.mp h with h | h
        · exact h ▸ List.mem_cons_self _ _
        · exact List.mem_cons_of_mem _ (ih h)

/-- Remote groups never contain the local peer. -/
theorem groupedRemotes_spec (localId : PK) (refs : List ReceivedRef) (g : PK) :
    g ∈ groupedRemotes localId refs → g ≠ localId := by
  intro h
  unfold groupedRemotes at h
  have h1 := mem_sortStr _ _ (mem_dedupAdj _ _ h)
  obtain ⟨rr, hrr, hg⟩ := List.mem_map.mp h1
  rw [List.mem_filter] at hrr
  have := hrr.2
  simp only [decide_eq_true_eq] at this
  exact hg ▸ this

/-- A failing `rad/id` verification on a non-delegate clears and stops the
remote's collection, regardless of what was already collected. -/
theorem remoteTips_taint (verifies : Oid → Bool) (isDelegate : PK → Bool) (remote : PK)
    (hnd : isDelegate remote = false) :
    ∀ (rs : List ReceivedRef) (acc : List Update),
      (∃ rr ∈ rs, rr.name.suffix = .inl .id ∧ verifies rr.tip = false) →
      remoteTips verifies isDelegate remote rs acc = .ok [] := by
  intro rs
  induction rs with
  | nil => intro acc h; simp at h
  | cons r rest ih =>
    intro acc hfail
    obtain ⟨rr, hrr, hsuf, hver⟩ := hfail
    rcases hs : r.name.suffix with sp | q
    · cases sp with
      | id =>
        unfold remoteTips
        rw [hs]
        by_cases hv : verifies r.tip = true
        · rw [hv]
          simp only [if_true]
          apply ih
          rcases List.mem_cons.mp hrr with h | h
          · subst h
            rw [hs] at hsuf
            rw [hv] at hver
            simp at hver
          · exact ⟨rr, h, hsuf, hver⟩
        · simp only [Bool.not_eq_true] at hv
          rw [hv]
          simp [hnd]
      | signedRefs =>
        unfold remoteTips
        rw [hs]
        apply ih
        rcases List.mem_cons.mp hrr with h | h
        · subst h
          rw [hs] at hsuf
          simp at hsuf
        · exact ⟨rr, h, hsuf, hver⟩
    · unfold remoteTips
      rw [hs]
      apply ih
      rcases List.mem_cons.mp hrr with h | h
      · subst h
        rw [hs] at hsuf
        simp at hsuf
      · exact ⟨rr, h, hsuf, hver⟩

/-- When no delegate-failure can occur in a remote's group, its collection
succeeds and every produced update lives under that remote's namespace. -/
theorem remoteTips_ok (verifies : Oid → Bool) (isDelegate : PK → Bool) (remote : PK) :
    ∀ (rs : List ReceivedRef) (acc : List Update),
      (∀ rr ∈ rs, rr.name.remote = remote) →
      (∀ rr ∈ rs, rr.name.suffix = .inl .id → verifies rr.tip = false →
        isDelegate remote = false) →
      (∀ u ∈ acc, updateNamespace u = some remote) →
      ∃ ts, remoteTips verifies isDelegate remote rs acc = .ok ts
        ∧ ∀ u ∈ ts, updateNamespace u = some remote := by
  intro rs
  induction rs with
  | nil => intro acc _ _ hacc; exact ⟨acc, rfl, hacc⟩
  | cons r rest ih =>
    intro acc hall hsafe hacc
    have hr : r.name.remote = remote := hall r (List.mem_cons_self _ _)
    have hacc' : ∀ u ∈ acc ++ [Update.direct r.name.namespaced r.tip .abort],
        updateNamespace u = some remote := by
      intro u hu
      rcases List.mem_append.mp hu with h | h
      · exact hacc u h
      · rw [List.mem_singleton] at h
        subst h
        show updateNamespace (.direct r.name.namespaced r.tip .abort) = some remote
        rw [← hr]
        rfl
    rcases hs : r.name.suffix with sp | q
    · cases sp with
      | id =>
        unfold remoteTips
        rw [hs]
        by_cases hv : verifies r.tip = true
        · rw [hv]
          simp only [if_true]
          exact ih _ (fun rr h => hall rr (List.mem_cons_of_mem _ h))
            (fun rr h => hsafe rr (List.mem_cons_of_mem _ h)) hacc'
        · simp only [Bool.not_eq_true] at hv
          rw [hv]
          have : isDelegate remote = false :=
            hsafe r (List.mem_cons_self _ _) hs hv
          simp [this]
      | signedRefs =>
        unfold remoteTips
        rw [hs]
        exact ih _ (fun rr h => hall rr (List.mem_cons_of_mem _ h))
          (fun rr h => hsafe rr (List.mem_cons_of_mem _ h)) hacc'
    · unfold remoteTips
      rw [hs]
      exact ih _ (fun rr h => hall rr (List.mem_cons_of_mem _ h))
        (fun rr h => hsafe rr (List.mem_cons_of_mem _ h)) hacc

/-- Group processing succeeds and yields nothing under the tainted remote's
namespace when its `rad/id` fails and all delegate id tips verify. -/
theorem verifyGroups_taint (r : PK) (verifies : Oid → Bool)
    (isDelegate : PK → Bool) (refs : List ReceivedRef)
    (hnd : isDelegate r = false)
    (hfail : ∃ rr ∈ refs, rr.name.remote = r ∧ rr.name.suffix = .inl .id
      ∧ verifies rr.tip = false)
    (hdel : ∀ rr ∈ refs, isDelegate rr.name.remote = true →
      rr.name.suffix = .inl .id → verifies rr.tip = true) :
    ∀ gs : List PK, ∃ us, verifyGroups verifies isDelegate refs gs = .ok us
      ∧ ∀ u ∈ us, updateNamespace u ≠ some r := by
  intro gs
  induction gs with
  | nil => exact ⟨[], rfl, by simp⟩
  | cons g gs ih =>
    obtain ⟨us, hus, hns⟩ := ih
    by_cases hg : g = r
    · subst hg
      obtain ⟨rr, hrr, hrem, hsuf, hver⟩ := hfail
      have hgrp : rr ∈ groupRefs g refs :=
        List.mem_filter.mpr ⟨hrr, by simp [hrem]⟩
      have htaint := remoteTips_taint verifies isDelegate g hnd
        (groupRefs g refs) [] ⟨rr, hgrp, hsuf, hver⟩
      refine ⟨us, ?_, hns⟩
      unfold verifyGroups
      rw [htaint, hus]
      simp
    · have hall : ∀ rr ∈ groupRefs g refs, rr.name.remote = g := by
        intro rr h
        have := (List.mem_filter.mp h).2
        simpa using this
      have hsafe : ∀ rr ∈ groupRefs g refs, rr.name.suffix = .inl .id →
          verifies rr.tip = false → isDelegate g = false := by
        intro rr h hsuf hver
        have hmem := (List.mem_filter.mp h).1
        by_cases hd : isDelegate g = true
        · have := hdel rr hmem (by rw [hall rr h]; exact hd) hsuf
          rw [this] at hver
          simp at hver
        · simpa using hd
      obtain ⟨ts, hts, htsns⟩ := remoteTips_ok verifies isDelegate g
        (groupRefs g refs) [] hall hsafe (by simp)
      refine ⟨ts ++ us, ?_, ?_⟩
      · unfold verifyGroups
        rw [hts, hus]
      · intro u hu
        rcases List.mem_append.mp hu with h | h
        · rw [htsns u h]
          intro hc
          injection hc with hc
          exact hg hc
        · exact hns u h

/-- Keyed insertion produces only old or inserted edits. -/
theorem mem_insertEdit (m : List RefEdit) (e x : RefEdit) :
    x ∈ insertEdit m e → x ∈ m ∨ x = e := by
  unfold insertEdit
  split
  · intro h
    obtain ⟨e', he', hx⟩ := List.mem_map.mp h
    by_cases hn : e'.name = e.name
    · rw [if_pos hn] at hx
      exact .inr hx.symm
    · rw [if_neg hn] at hx
      exact .inl (hx ▸ he')
  · intro h
    rcases List.mem_append.mp h with h | h
    · exact .inl h
    · exact .inr (List.mem_singleton.mp h)

/-- Edits in the keyed collection come from the initial collection or from
the folded edits. -/
theorem mem_foldl_insertEdit (es : List RefEdit) :
    ∀ (m : List RefEdit) (x : RefEdit), x ∈ es.foldl insertEdit m → x ∈ m ∨ x ∈ es := by
  induction es with
  | nil => intro m x h; exact .inl h
  | cons e es ih =>
    intro m x h
    simp only [List.foldl_cons] at h
    rcases ih (insertEdit m e) x h with h' | h'
    · rcases mem_insertEdit m e x h' with h'' | h''
      · exact .inl h''
      · exact .inr (h'' ▸ List.mem_cons_self _ _)
    · exact .inr (List.mem_cons_of_mem _ h')

/-- Every classified edit stems from the `Right` result of `to_edits` on
some input update. -/
theorem classify_edits_src (odb : Odb) (st : RefState) (us : List Update) :
    ∀ (init : List Update × List RefEdit) (e : RefEdit),
      e ∈ (us.foldl (classifyStep odb st) init).2 →
      e ∈ init.2 ∨ ∃ u ∈ us, ∃ es, toEdits odb st u = .ok (.inr es) ∧ e ∈ es := by
  induction us with
  | nil => intro init e h; exact .inl h
  | cons u us ih =>
    intro init e h
    simp only [List.foldl_cons] at h
    rcases htoe : toEdits odb st u with err | v
    · rw [show classifyStep odb st init u = init by simp [classifyStep, htoe]] at h
      rcases ih init e h with h' | ⟨u', hu', es, hes, he⟩
      · exact .inl h'
      · exact .inr ⟨u', List.mem_cons_of_mem _ hu', es, hes, he⟩
    · rcases v with r' | es
      · rw [show classifyStep odb st init u = (init.1 ++ [r'], init.2)
            by simp [classifyStep, htoe]] at h
        rcases ih _ e h with h' | ⟨u', hu', es', hes, he⟩
        · exact .inl h'
        · exact .inr ⟨u', List.mem_cons_of_mem _ hu', es', hes, he⟩
      · rw [show classifyStep odb st init u = (init.1, es.foldl insertEdit init.2)
            by simp [classifyStep, htoe]] at h
        rcases ih _ e h with h' | ⟨u', hu', es', hes, he⟩
        · rcases mem_foldl_insertEdit es init.2 e h' with h'' | h''
          · exact .inl h''
          · exact .inr ⟨u, List.mem_cons_self _ _, es, htoe, h''⟩
        · exact .inr ⟨u', List.mem_cons_of_mem _ hu', es', hes, he⟩

/-- Every edit a `Direct` update emits carries the update's ref name. -/
theorem directEdit_names (odb : Odb) (st : RefState) (n : RefName) (t : Oid)
    (p : Policy) (es : List RefEdit)
    (h : toEdits odb st (.direct n t p) = .ok (.inr es)) :
    ∀ e ∈ es, e.name = n := by
  intro e he
  simp only [toEdits] at h
  unfold directEdit at h
  rcases hfs : findSnapshot st n with err | o
  · rw [hfs] at h; simp at h
  · rw [hfs] at h
    rcases o with _ | prev
    · simp only at h
      injection h with h
      injection h with h
      subst h
      rw [List.mem_singleton] at he
      subst he
      rfl
    · simp only at h
      rcases hanc : odb.isInAncestryPath t prev with err | isFF
      · rw [hanc] at h; simp at h
      · rw [hanc] at h
        simp only at h
        by_cases hff : isFF
        · rw [if_neg (by simp [hff])] at h
          injection h with h
          injection h with h
          subst h
          rw [List.mem_singleton] at he
          subst he
          rfl
        · rw [if_pos (by simp [hff])] at h
          cases p with
          | abort => simp at h
          | reject => simp at h
          | allow =>
            simp only at h
            injection h with h
            injection h with h
            subst h
            rw [List.mem_singleton] at he
            subst he
            rfl

/-- A successful `Refdb::update` reports exactly the rendered keyed
edits. -/
theorem refdbUpdate_ok_updated (odb : Odb) (st : RefState) (us : List Update)
    (ap : Applied) (st' : RefState) (hok : refdbUpdate odb st us = .ok (ap, st')) :
    ap.updated = (classifyAll odb st us).2.map renderEdit := by
  unfold refdbUpdate at hok
  simp only at hok
  rcases hfind : (classifyAll odb st us).2.find? (fun e => ¬ checkEdit st e) with _ | e
  · rw [hfind] at hok
    simp only at hok
    injection hok with hok
    injection hok with hap _
    rw [← hap]
  · rw [hfind] at hok
    simp at hok

/-- Updates surviving a remote's verification loop are the accumulated ones
or `Direct`/`Abort` updates. -/
theorem remoteTips_shape (verifies : Oid → Bool) (isDelegate : PK → Bool) (remote : PK) :
    ∀ (rs : List ReceivedRef) (acc ts : List Update),
      remoteTips verifies isDelegate remote rs acc = .ok ts →
      ∀ u ∈ ts, u ∈ acc ∨ ∃ nm tp, u = .direct nm tp .abort := by
  intro rs
  induction rs with
  | nil =>
    intro acc ts h u hu
    unfold remoteTips at h
    injection h with h
    exact .inl (h ▸ hu)
  | cons r rest ih =>
    intro acc ts h u hu
    unfold remoteTips at h
    rcases hs : r.name.suffix with sp | q
    · rw [hs] at h
      cases sp with
      | id =>
        by_cases hv : verifies r.tip = true
        · rw [hv] at h
          simp only [if_true] at h
          rcases ih _ _ h u hu with h' | h'
          · rcases List.mem_append.mp h' with h'' | h''
            · exact .inl h''
            · exact .inr ⟨_, _, List.mem_singleton.mp h''⟩
          · exact .inr h'
        · simp only [Bool.not_eq_true] at hv
          rw [hv] at h
          simp only [Bool.false_eq_true, if_false] at h
          by_cases hd : isDelegate remote = true
          · rw [hd] at h; simp at h
          · simp only [Bool.not_eq_true] at hd
            rw [hd] at h
            simp only [Bool.false_eq_true, if_false] at h
            injection h with h
            subst h
            simp at hu
      | signedRefs =>
        rcases ih _ _ h u hu with h' | h'
        · rcases List.mem_append.mp h' with h'' | h''
          · exact .inl h''
          · exact .inr ⟨_, _, List.mem_singleton.mp h''⟩
        · exact .inr h'
    · rw [hs] at h
      exact ih _ _ h u hu

/-- Every update produced by the verification stage is `Direct` with policy
`Abort`. -/
theorem verifyGroups_shape (verifies : Oid → Bool) (isDelegate : PK → Bool)
    (refs : List ReceivedRef) :
    ∀ (gs : List PK) (us : List Update),
      verifyGroups verifies isDelegate refs gs = .ok us →
      ∀ u ∈ us, ∃ nm tp, u = .direct nm tp .abort := by
  intro gs
  induction gs with
  | nil =>
    intro us h u hu
    unfold verifyGroups at h
    injection h with h
    subst h
    simp at hu
  | cons g gs ih =>
    intro us h u hu
    unfold verifyGroups at h
    rcases hts : remoteTips verifies isDelegate g (groupRefs g refs) [] with err | ts
    · rw [hts] at h; simp at h
    · rw [hts] at h
      rcases hrest : verifyGroups verifies isDelegate refs gs with err | rest
      · rw [hrest] at h; simp at h
      · rw [hrest] at h
        simp only at h
        injection h with h
        subst h
        rcases List.mem_append.mp hu with h' | h'
        · rcases remoteTips_shape verifies isDelegate g _ _ _ hts u h' with h'' | h''
          · simp at h''
          · exact h''
        · exact ih rest hrest u h'

/-- C4.  Confirmed: when the `rad/id` tip of a non-delegate remote `r`
fails verification (and no delegate id fails, which would be fatal),
`verification_refs` succeeds, its staged updates contain nothing under
`r`'s namespace — the taint clears any already-collected sigrefs update of
`r` — and committing those updates through `Refdb::update` yields an
`Applied.updated` with no ref whose namespace is `r`. -/
theorem c4_nondelegate_taint (localId r : PK) (verifies : Oid → Bool)
    (isDelegate : PK → Bool) (refs : List ReceivedRef)
    (hnd : isDelegate r = false)
    (hfail : ∃ rr ∈ refs, rr.name.remote = r ∧ rr.name.suffix = .inl .id
      ∧ verifies rr.tip = false)
    (hdel : ∀ rr ∈ refs, isDelegate rr.name.remote = true →
      rr.name.suffix = .inl .id → verifies rr.tip = true) :
    ∃ us, verificationRefs localId verifies isDelegate refs = .ok us
      ∧ (∀ u ∈ us, updateNamespace u ≠ some r)
      ∧ ∀ (odb : Odb) (st : RefState) (ap : Applied) (st' : RefState),
          refdbUpdate odb st us = .ok (ap, st') →
          ∀ e ∈ ap.updated, updatedNamespace e ≠ some r := by
  obtain ⟨us, hus, hns⟩ := verifyGroups_taint r verifies isDelegate refs hnd hfail hdel
    (groupedRemotes localId refs)
  refine ⟨us, hus, hns, ?_⟩
  intro odb st ap st' hok e he
  rw [refdbUpdate_ok_updated odb st us ap st' hok] at he
  obtain ⟨ed, hed, hre⟩ := List.mem_map.mp he
  rcases classify_edits_src odb st us ([], []) ed hed with h0 | ⟨u, hu, es, hes, hmem_es⟩
  · simp at h0
  · obtain ⟨nm, tp, rfl⟩ := verifyGroups_shape verifies isDelegate refs
      (groupedRemotes localId refs) us hus u hu
    have hname := directEdit_names odb st nm tp .abort es hes ed hmem_es
    have hnsu := hns _ hu
    intro hc
    apply hnsu
    show nameNamespace nm = some r
    rw [← hname]
    rw [← renderEdit_name ed]
    rw [hre]
    exact hc

/-- Witness for C4: delegate `zD` verifies, tracked non-delegate `zR`
fails, so only `zD`'s refs survive. -/
theorem c4_nondelegate_taint_witness :
    ∃ us, verificationRefs "zL" (fun t => t = 1) (fun p => p = "zD")
        [⟨1, ⟨"zD", .inl .id⟩⟩, ⟨5, ⟨"zR", .inl .signedRefs⟩⟩, ⟨2, ⟨"zR", .inl .id⟩⟩]
        = .ok us
      ∧ (∀ u ∈ us, updateNamespace u ≠ some "zR")
      ∧ ∀ (odb : Odb) (st : RefState) (ap : Applied) (st' : RefState),
          refdbUpdate odb st us = .ok (ap, st') →
          ∀ e ∈ ap.updated, updatedNamespace e ≠ some "zR" :=
  c4_nondelegate_taint "zL" "zR" (fun t => t = 1) (fun p => p = "zD")
    [⟨1, ⟨"zD", .inl .id⟩⟩, ⟨5, ⟨"zR", .inl .signedRefs⟩⟩, ⟨2, ⟨"zR", .inl .id⟩⟩]
    (by decide)
    ⟨⟨2, ⟨"zR", .inl .id⟩⟩, by simp, rfl, rfl, by decide⟩
    (by decide)

/-- C7.  Confirmed: when a batch contains a conflicting update under
policy `Reject` (a non-fast-forward `Direct`, or a `Symbolic` hitting an
existing direct ref), `Refdb::update` still returns `Ok`, the conflicting
update is placed (in order) into `Applied.rejected`, no edit is emitted
for it, and the rest of the batch produces exactly the applied entries and
final state it would produce without the conflicting update. -/
theorem c7_reject_does_not_fail (odb : Odb) (st : RefState)
    (us₁ us₂ : List Update) (u : Update) (ap : Applied) (st' : RefState)
    (hrej : RejectsUpdate odb st u)
    (hok : refdbUpdate odb st (us₁ ++ us₂) = .ok (ap, st')) :
    ∃ ap', refdbUpdate odb st (us₁ ++ u :: us₂) = .ok (ap', st')
      ∧ ap'.updated = ap.updated
      ∧ ∃ r₁ r₂, ap.rejected = r₁ ++ r₂ ∧ ap'.rejected = r₁ ++ u :: r₂ := by
  have htoe := toEdits_of_rejects odb st u hrej
  have hsplit : classifyAll odb st (us₁ ++ u :: us₂)
      = ((classifyAll odb st us₁).1
          ++ u :: (us₂.foldl (classifyStep odb st) ([], (classifyAll odb st us₁).2)).1,
         (us₂.foldl (classifyStep odb st) ([], (classifyAll odb st us₁).2)).2) := by
    unfold classifyAll
    rw [List.foldl_append, List.foldl_cons]
    have hstep : classifyStep odb st (us₁.foldl (classifyStep odb st) ([], [])) u
        = ((us₁.foldl (classifyStep odb st) ([], [])).1 ++ [u],
           (us₁.foldl (classifyStep odb st) ([], [])).2) := by
      simp [classifyStep, htoe]
    rw [hstep, classify_shift odb st us₂ _ _]
    simp
  have hsplit₂ : classifyAll odb st (us₁ ++ us₂)
      = ((classifyAll odb st us₁).1
          ++ (us₂.foldl (classifyStep odb st) ([], (classifyAll odb st us₁).2)).1,
         (us₂.foldl (classifyStep odb st) ([], (classifyAll odb st us₁).2)).2) := by
    unfold classifyAll
    rw [List.foldl_append]
    rw [classify_shift odb st us₂ _ _]
  unfold refdbUpdate at hok ⊢
  rw [hsplit₂] at hok
  rw [hsplit]
  simp only at hok ⊢
  rcases hfind : (us₂.foldl (classifyStep odb st) ([], (classifyAll odb st us₁).2)).2.find?
      (fun e => ¬ checkEdit st e) with _ | e
  · rw [hfind] at hok
    simp only at hok
    injection hok with hok
    injection hok with hap hst
    refine ⟨⟨(classifyAll odb st us₁).1
        ++ u :: (us₂.foldl (classifyStep odb st) ([], (classifyAll odb st us₁).2)).1,
        (us₂.foldl (classifyStep odb st) ([], (classifyAll odb st us₁).2)).2.map renderEdit⟩,
      ?_, ?_, ?_⟩
    · rw [hst]
    · rw [← hap]
    · exact ⟨(classifyAll odb st us₁).1, _, by rw [← hap], rfl⟩
  · rw [hfind] at hok
    simp at hok

/-- Witness for C7: a rejected non-fast-forward on `main` leaves the
create of `dev` applied, with the conflicting update in the rejected
list. -/
theorem c7_reject_does_not_fail_witness :
    ∃ ap', refdbUpdate odbRoots [(nMain, RTarget.peeled 1)]
        ([] ++ Update.direct nMain 2 .reject :: [Update.direct nDev 3 .allow])
        = .ok (ap', [(nMain, RTarget.peeled 1), (nDev, RTarget.peeled 3)])
      ∧ ap'.updated = [Updated.direct nDev 3]
      ∧ ∃ r₁ r₂, ([] : List Update) = r₁ ++ r₂
          ∧ ap'.rejected = r₁ ++ Update.direct nMain 2 .reject :: r₂ :=
  c7_reject_does_not_fail odbRoots [(nMain, RTarget.peeled 1)] []
    [Update.direct nDev 3 .allow] (Update.direct nMain 2 .reject)
    ⟨[], [Updated.direct nDev 3]⟩ [(nMain, RTarget.peeled 1), (nDev, RTarget.peeled 3)]
    ⟨rfl, 1, rfl, rfl⟩ (by rfl)

/-- The second component of the classification fold is obtained by keying
all emitted edits, in order, into the (initially given) collection. -/
theorem classify_edits_eq_emitted (odb : Odb) (st : RefState) (us : List Update) :
    ∀ (init : List Update × List RefEdit),
      (us.foldl (classifyStep odb st) init).2
        = (emittedEdits odb st us).foldl insertEdit init.2 := by
  induction us with
  | nil => intro init; simp [emittedEdits]
  | cons u us ih =>
    intro init
    rcases htoe : toEdits odb st u with err | v
    · simp only [List.foldl_cons, classifyStep, htoe]
      rw [ih]
      simp [emittedEdits, List.filterMap_cons, htoe]
    · rcases v with r' | es
      · simp only [List.foldl_cons, classifyStep, htoe]
        rw [ih]
        simp [emittedEdits, List.filterMap_cons, htoe]
      · simp only [List.foldl_cons, classifyStep, htoe]
        rw [ih]
        simp [emittedEdits, List.filterMap_cons, htoe, List.foldl_append]

/-- Keyed insertion either leaves the name list unchanged (replacement) or
appends the new name. -/
theorem names_insertEdit (m : List RefEdit) (e : RefEdit) :
    (insertEdit m e).map RefEdit.name
      = if e.name ∈ m.map RefEdit.name then m.map RefEdit.name
        else m.map RefEdit.name ++ [e.name] := by
  unfold insertEdit
  by_cases hmem : e.name ∈ m.map RefEdit.name
  · have hany : m.any (fun e' => e'.name = e.name) = true := by
      simp only [List.any_eq_true, decide_eq_true_eq]
      obtain ⟨x, hx, hxe⟩ := List.mem_map.mp hmem
      exact ⟨x, hx, hxe⟩
    rw [if_pos hany, if_pos hmem, List.map_map]
    apply List.map_congr_left
    intro e' _
    by_cases h : e'.name = e.name
    · simp [h]
    · simp [h]
  · have hany : m.any (fun e' => e'.name = e.name) = false := by
      simp only [List.any_eq_false, decide_eq_true_eq]
      intro x hx hxe
      exact hmem (List.mem_map.mpr ⟨x, hx, hxe⟩)
    rw [if_neg hmem]
    rw [hany]
    simp

/-- The keyed edit collection has pairwise distinct names, and its names
are exactly the initial names together with the inserted edits' names. -/
theorem names_foldl_insert (es : List RefEdit) :
    ∀ (m : List RefEdit), (m.map RefEdit.name).Nodup →
      ((es.foldl insertEdit m).map RefEdit.name).Nodup
      ∧ (∀ n, n ∈ (es.foldl insertEdit m).map RefEdit.name
          ↔ n ∈ m.map RefEdit.name ∨ n ∈ es.map RefEdit.name) := by
  induction es with
  | nil => intro m hm; simpa using hm
  | cons e es ih =>
    intro m hm
    simp only [List.foldl_cons]
    have hnames := names_insertEdit m e
    by_cases hmem : e.name ∈ m.map RefEdit.name
    · rw [if_pos hmem] at hnames
      have hnd : ((insertEdit m e).map RefEdit.name).Nodup := hnames ▸ hm
      obtain ⟨h1, h2⟩ := ih (insertEdit m e) hnd
      refine ⟨h1, fun n => ?_⟩
      rw [h2 n, hnames]
      simp only [List.map_cons, List.mem_cons]
      constructor
      · rintro (h | h)
        · exact .inl h
        · exact .inr (.inr h)
      · rintro (h | h | h)
        · exact .inl h
        · exact .inl (h ▸ hmem)
        · exact .inr h
    · rw [if_neg hmem] at hnames
      have hnd : ((insertEdit m e).map RefEdit.name).Nodup := by
        rw [hnames]
        refine List.Nodup.append hm (List.nodup_singleton _) ?_
        intro a ha hb
        rw [List.mem_singleton] at hb
        exact hmem (hb ▸ ha)
      obtain ⟨h1, h2⟩ := ih (insertEdit m e) hnd
      refine ⟨h1, fun n => ?_⟩
      rw [h2 n, hnames]
      simp only [List.map_cons, List.mem_cons, List.mem_append, List.mem_singleton]
      tauto

/-- Counting occurrences under a duplicate-free projection yields one per
present name. -/
theorem countP_name_nodup {β : Type} (f : β → RefName) (l : List β)
    (hnd : (l.map f).Nodup) (n : RefName) :
    l.countP (fun x => decide (f x = n)) = if n ∈ l.map f then 1 else 0 := by
  induction l with
  | nil => simp
  | cons x l ih =>
    simp only [List.map_cons, List.nodup_cons] at hnd
    obtain ⟨hx, hl⟩ := hnd
    rw [List.countP_cons, ih hl]
    by_cases h : f x = n
    · subst h
      rw [if_neg hx]
      simp
    · have hne : ¬ n = f x := fun hh => h hh.symm
      simp [List.mem_cons, h, hne]

/-- C6 amended.  Every successful `Refdb::update` produces exactly one
`Applied.updated` entry per distinct name among the edits derived from the
input updates: a later edit to the same name supersedes an earlier one in
the name-keyed collection, and the order of the entries is unspecified. -/
theorem c6_updated_once_per_name :
    ∀ (odb : Odb) (st : RefState) (us : List Update) (ap : Applied) (st' : RefState),
      refdbUpdate odb st us = .ok (ap, st') →
      ∀ n : RefName, ap.updated.countP (fun e => decide (Updated.name e = n))
        = if n ∈ (emittedEdits odb st us).map RefEdit.name then 1 else 0 := by
  intro odb st us ap st' hok n
  have hedits : (classifyAll odb st us).2 = (emittedEdits odb st us).foldl insertEdit [] := by
    have := classify_edits_eq_emitted odb st us ([], [])
    simpa [classifyAll] using this
  obtain ⟨hnd, hmem⟩ := names_foldl_insert (emittedEdits odb st us) [] (by simp)
  have hup : ap.updated = (classifyAll odb st us).2.map renderEdit := by
    unfold refdbUpdate at hok
    simp only at hok
    rcases hfind : (classifyAll odb st us).2.find? (fun e => ¬ checkEdit st e) with _ | e
    · rw [hfind] at hok
      simp only at hok
      injection hok with hok
      injection hok with hap _
      rw [← hap]
    · rw [hfind] at hok
      simp at hok
  rw [hup, List.countP_map]
  have hcong : ((classifyAll odb st us).2.countP
        ((fun e => decide (Updated.name e = n)) ∘ renderEdit))
      = (classifyAll odb st us).2.countP (fun e => decide (RefEdit.name e = n)) := by
    apply List.countP_congr
    intro e _
    simp [Function.comp, renderEdit_name]
  rw [hcong]
  rw [hedits]
  rw [countP_name_nodup RefEdit.name _ (hedits ▸ (hedits.symm ▸ hnd)) n]
  have hm := hmem n
  simp only [List.map_nil, List.not_mem_nil, false_or] at hm
  by_cases hin : n ∈ (emittedEdits odb st us).map RefEdit.name
  · rw [if_pos (hm.mpr hin), if_pos hin]
  · rw [if_neg (fun hc => hin (hm.mp hc)), if_neg hin]

/-- Witness for C6 amended at a single create of `main`. -/
theorem c6_updated_once_per_name_witness :
    (Applied.mk [] [Updated.direct nMain 1]).updated.countP
        (fun e => decide (Updated.name e = nMain))
      = if nMain ∈ (emittedEdits odbRoots []
          [Update.direct nMain 1 .allow]).map RefEdit.name then 1 else 0 :=
  c6_updated_once_per_name odbRoots [] [Update.direct nMain 1 .allow]
    ⟨[], [Updated.direct nMain 1]⟩ [(nMain, RTarget.peeled 1)] (by rfl) nMain

/-- C9.  Confirmed: parsing a namespaced ref name and rendering the result
back (`Refname::namespaced`) restores the input; under `refs/rad/` exactly
the single following segment `id` or `sigrefs` parses to the corresponding
special refname, and any other segment, or extra segments, is a
malformed-suffix error (`refs.rs:145-177`). -/
theorem c9_refname_roundtrip :
    (∀ (cs : RefName) (rn : Refname), parseRefname cs = .ok rn → rn.namespaced = cs)
    ∧ (∀ pk : PK, isValidKey pk = true →
        parseRefname ("refs" :: "namespaces" :: pk :: ["refs", "rad", "id"])
          = .ok ⟨pk, .inl .id⟩
        ∧ parseRefname ("refs" :: "namespaces" :: pk :: ["refs", "rad", "sigrefs"])
          = .ok ⟨pk, .inl .signedRefs⟩)
    ∧ (∀ (pk x : String) (tail : List String), isValidKey pk = true →
        ¬(x = "id" ∧ tail = []) → ¬(x = "sigrefs" ∧ tail = []) →
        parseRefname ("refs" :: "namespaces" :: pk :: "refs" :: "rad" :: x :: tail)
          = .error .malformedSuffix) := by
  refine ⟨?_, ?_, ?_⟩
  · intro cs rn h
    unfold parseRefname at h
    split at h
    · simp at h
    · split at h
      · next pk rest =>
        split at h
        · simp at h
        · split at h
          · simp at h
          · split at h
            · next tail =>
              split at h
              · injection h with h'
                subst h'
                rfl
              · injection h with h'
                subst h'
                rfl
              · simp at h
            · injection h with h'
              subst h'
              rfl
      · simp at h
  · intro pk h
    constructor <;> simp [parseRefname, isQualifiedName, h]
  · intro pk x tail h hid hsig
    unfold parseRefname
    simp [isQualifiedName, h]
    split
    · next heq =>
      rw [List.cons_eq_cons] at heq
      exact absurd ⟨heq.1, heq.2⟩ hid
    · next heq =>
      rw [List.cons_eq_cons] at heq
      exact absurd ⟨heq.1, heq.2⟩ hsig
    · rfl

/-- Witness for C9 at the concrete key `pkW`. -/
theorem c9_refname_roundtrip_witness :
    Refname.namespaced ⟨pkW, .inl .id⟩
      = "refs" :: "namespaces" :: pkW :: ["refs", "rad", "id"]
    ∧ parseRefname ("refs" :: "namespaces" :: pkW :: ["refs", "rad", "id"])
      = .ok ⟨pkW, .inl .id⟩
    ∧ parseRefname ("refs" :: "namespaces" :: pkW :: ["refs", "rad", "extra", "x"])
      = .error .malformedSuffix :=
  ⟨c9_refname_roundtrip.1 _ _ (by rfl),
   (c9_refname_roundtrip.2.1 pkW (by decide)).1,
   c9_refname_roundtrip.2.2 pkW "extra" ["x"] (by decide) (by decide) (by decide)⟩

/-- Association-list lookup returns a stored pair. -/
theorem lookup_mem {α β : Type} [BEq α] [LawfulBEq α] (l : List (α × β)) (a : α) (b : β) :
    l.lookup a = some b → (a, b) ∈ l := by
  induction l with
  | nil => intro h; simp [List.lookup] at h
  | cons kv l ih =>
    intro h
    rw [List.lookup] at h
    by_cases hk : a == kv.1
    · rw [hk] at h
      injection h with h
      subst h
      have : a = kv.1 := eq_of_beq hk
      subst this
      exact List.mem_cons_self _ _
    · simp only [Bool.not_eq_true] at hk
      rw [hk] at h
      exact List.mem_cons_of_mem _ (ih h)

/-- Parents of a present object are among all recorded parents. -/
theorem parents_sub_allParents (o : Odb) (x : Oid) (ps : List Oid)
    (h : o.parents x = some ps) : ∀ p ∈ ps, p ∈ o.allParents := by
  intro p hp
  have hmem : (x, ps) ∈ o.objects := lookup_mem _ _ _ h
  unfold Odb.allParents
  rw [List.mem_flatten]
  exact ⟨ps, List.mem_map.mpr ⟨(x, ps), hmem, rfl⟩, hp⟩

/-- In a closed store every recorded parent is present. -/
theorem closed_allParents (o : Odb) (hcl : o.closed = true) :
    ∀ p ∈ o.allParents, o.contains p = true := by
  intro p hp
  unfold Odb.allParents at hp
  rw [List.mem_flatten] at hp
  obtain ⟨ps, hps, hp'⟩ := hp
  obtain ⟨⟨x, ps'⟩, hmem, hesnd⟩ := List.mem_map.mp hps
  unfold Odb.closed at hcl
  rw [List.all_eq_true] at hcl
  have := hcl _ hmem
  rw [List.all_eq_true] at this
  exact this p (by rw [← hesnd] at hp'; exact hp')

/-- A present object has a parent list. -/
theorem contains_parents (o : Odb) (x : Oid) :
    o.contains x = true → ∃ ps, o.parents x = some ps := by
  intro h
  unfold Odb.contains at h
  rw [Option.isSome_iff_exists] at h
  exact h

/-- Reachability extends along one more parent edge. -/
theorem reach_snoc (o : Odb) : ∀ {a x : Oid}, Reach o a x →
    ∀ {ps : List Oid} {p : Oid}, o.parents x = some ps → p ∈ ps → Reach o a p := by
  intro a x h
  induction h with
  | refl z => intro ps p hps hp; exact .step hps hp (.refl p)
  | step hx hy _ ih => intro ps p hps hp; exact .step hx hy (ih hps hp)

/-- A parent-closed seen set absorbs everything reachable from it. -/
theorem reach_mem_closed_seen (o : Odb) (seen : List Oid)
    (hclosure : ∀ y ∈ seen, ∀ ps, o.parents y = some ps → ∀ p ∈ ps, p ∈ seen)
    {a b : Oid} (h : Reach o a b) : a ∈ seen → b ∈ seen := by
  induction h with
  | refl z => exact id
  | step hx hy _ ih => exact fun ha => ih (hclosure _ ha _ hx _ hy)

/-- The hash-set push of parents appends exactly the fresh parents to both
the seen set and the queue. -/
theorem pushParents_spec : ∀ (ps seen queue : List Oid), ∃ fresh,
    pushParents seen queue ps = (seen ++ fresh, queue ++ fresh)
    ∧ (∀ p ∈ ps, p ∈ seen ++ fresh)
    ∧ (∀ f ∈ fresh, f ∈ ps ∧ f ∉ seen)
    ∧ (seen.Nodup → (seen ++ fresh).Nodup) := by
  intro ps
  induction ps with
  | nil =>
    intro seen queue
    exact ⟨[], by simp [pushParents], by simp, by simp, by simp⟩
  | cons p ps ih =>
    intro seen queue
    by_cases hp : p ∈ seen
    · obtain ⟨fresh, heq, hmem, hf, hnd⟩ := ih seen queue
      refine ⟨fresh, ?_, ?_,
        fun f hf' => ⟨List.mem_cons_of_mem _ (hf f hf').1, (hf f hf').2⟩, hnd⟩
      · rw [pushParents, if_pos hp]
        exact heq
      · intro q hq
        rcases List.mem_cons.mp hq with h | h
        · exact h ▸ List.mem_append_left _ hp
        · exact hmem q h
    · obtain ⟨fresh, heq, hmem, hf, hnd⟩ := ih (seen ++ [p]) (queue ++ [p])
      refine ⟨p :: fresh, ?_, ?_, ?_, ?_⟩
      · rw [pushParents, if_neg hp, heq]
        simp
      · intro q hq
        rcases List.mem_cons.mp hq with h | h
        · subst h
          simp
        · have := hmem q h
          simpa using this
      · intro f hf'
        rcases List.mem_cons.mp hf' with h | h
        · subst h
          exact ⟨List.mem_cons_self _ _, hp⟩
        · obtain ⟨h1, h2⟩ := hf f h
          refine ⟨List.mem_cons_of_mem _ h1, fun hc => h2 ?_⟩
          simp [hc]
      · intro hndseen
        have h1 : (seen ++ [p]).Nodup := by
          refine List.Nodup.append hndseen (List.nodup_singleton _) ?_
          intro a ha hb
          rw [List.mem_singleton] at hb
          exact hp (hb ▸ ha)
        have := hnd h1
        simpa using this



/-- Correctness of the ancestor walk over a closed store: with sufficient
fuel it terminates without error and returns `true` exactly when `old` is
reachable from the walk's origin. -/
theorem walk_spec (o : Odb) (new old : Oid) (hcl : o.closed = true)
    (hnewc : o.contains new = true) :
    ∀ (fuel : Nat) (queue seen : List Oid),
      queue.length + ((o.allParents.length + 1) - seen.length) < fuel →
      seen.Nodup →
      (∀ y ∈ seen, y ∈ new :: o.allParents) →
      (∀ x ∈ queue, x ∈ seen) →
      (∀ x ∈ queue, Reach o new x) →
      new ∈ seen →
      (∀ y ∈ seen, y ∈ queue ∨ (y ≠ old ∧ ∀ ps, o.parents y = some ps → ∀ p ∈ ps, p ∈ seen)) →
      ∃ b, walk o old queue seen fuel = .ok b
        ∧ (b = true → Reach o new old)
        ∧ (b = false → ¬ Reach o new old) := by
  intro fuel
  induction fuel with
  | zero =>
    intro queue seen hfuel
    omega
  | succ fuel ih =>
    intro queue seen hfuel hnd hsub hqs hqr hnew hinv
    have hpres : ∀ y ∈ seen, o.contains y = true := by
      intro y hy
      rcases List.mem_cons.mp (hsub y hy) with h | h
      · exact h ▸ hnewc
      · exact closed_allParents o hcl y h
    match queue with
    | [] =>
      refine ⟨false, rfl, by simp, ?_⟩
      intro _ hreach
      have hclosure : ∀ y ∈ seen, ∀ ps, o.parents y = some ps → ∀ p ∈ ps, p ∈ seen := by
        intro y hy ps hps p hp
        rcases hinv y hy with h | h
        · simp at h
        · exact h.2 ps hps p hp
      have hos : old ∈ seen := reach_mem_closed_seen o seen hclosure hreach hnew
      rcases hinv old hos with h | h
      · simp at h
      · exact h.1 rfl
    | x :: rest =>
      obtain ⟨ps, hps⟩ := contains_parents o x (hpres x (hqs x (List.mem_cons_self _ _)))
      by_cases hxo : x = old
      · subst hxo
        refine ⟨true, ?_, fun _ => hqr _ (List.mem_cons_self _ _), by simp⟩
        simp [walk, hps]
      · obtain ⟨fresh, heq, hpsmem, hfresh, hndf⟩ := pushParents_spec ps seen rest
        have hwalk_eq : walk o old (x :: rest) seen (fuel + 1)
            = walk o old (rest ++ fresh) (seen ++ fresh) fuel := by
          simp [walk, hps, hxo, heq]
        have hsub' : ∀ y ∈ seen ++ fresh, y ∈ new :: o.allParents := by
          intro y hy
          rcases List.mem_append.mp hy with h | h
          · exact hsub y h
          · exact List.mem_cons_of_mem _
              (parents_sub_allParents o x ps hps y (hfresh y h).1)
        have hB : (seen ++ fresh).length ≤ o.allParents.length + 1 := by
          have hsp := (List.Nodup.subperm (hndf hnd) hsub').length_le
          simpa using hsp
        have hfuel' : (rest ++ fresh).length
            + ((o.allParents.length + 1) - (seen ++ fresh).length) < fuel := by
          rw [List.length_append] at hB ⊢
          rw [List.length_append]
          simp only [List.length_cons] at hfuel
          omega
        have hqs' : ∀ x' ∈ rest ++ fresh, x' ∈ seen ++ fresh := by
          intro x' hx'
          rcases List.mem_append.mp hx' with h | h
          · exact List.mem_append_left _ (hqs x' (List.mem_cons_of_mem _ h))
          · exact List.mem_append_right _ h
        have hqr' : ∀ x' ∈ rest ++ fresh, Reach o new x' := by
          intro x' hx'
          rcases List.mem_append.mp hx' with h | h
          · exact hqr x' (List.mem_cons_of_mem _ h)
          · exact reach_snoc o (hqr x (List.mem_cons_self _ _)) hps (hfresh x' h).1
        have hinv' : ∀ y ∈ seen ++ fresh, y ∈ rest ++ fresh
            ∨ (y ≠ old ∧ ∀ ps', o.parents y = some ps' → ∀ p ∈ ps', p ∈ seen ++ fresh) := by
          intro y hy
          rcases List.mem_append.mp hy with h | h
          · rcases hinv y h with h' | h'
            · rcases List.mem_cons.mp h' with h'' | h''
              · subst h''
                refine .inr ⟨hxo, ?_⟩
                intro ps' hps' p hp
                rw [hps] at hps'
                injection hps' with hps'
                subst hps'
                exact hpsmem p hp
              · exact .inl (List.mem_append_left _ h'')
            · exact .inr ⟨h'.1, fun ps' hps' p hp =>
                List.mem_append_left _ (h'.2 ps' hps' p hp)⟩
          · exact .inl (List.mem_append_right _ h)
        obtain ⟨b, hw, ht, hf⟩ := ih (rest ++ fresh) (seen ++ fresh) hfuel'
          (hndf hnd) hsub' hqs' hqr' (List.mem_append_left _ hnew) hinv'
        exact ⟨b, hwalk_eq ▸ hw, ht, hf⟩



/-- C5 amended.  The ancestry predicate returns `Ok true` when the two
oids are equal (even if absent); returns `Ok false` when they differ and
either object is absent; on a closed store with both present it returns
`Ok true` exactly when the ancestor lies in the commit-parent closure of
the descendant; and a missing object mid-traversal yields a
`MissingObject` error (shown on a representative store, since which error
surfaces in general depends on traversal order). -/
theorem c5_ancestry_amended :
    (∀ (o : Odb) (x : Oid), o.isInAncestryPath x x = .ok true)
    ∧ (∀ (o : Odb) (x y : Oid), x ≠ y →
        (o.contains x = false ∨ o.contains y = false) →
        o.isInAncestryPath x y = .ok false)
    ∧ (∀ (o : Odb) (x y : Oid), o.closed = true →
        o.contains x = true → o.contains y = true →
        (o.isInAncestryPath x y = .ok true ↔ Reach o x y))
    ∧ (⟨[(10, [11]), (12, [])]⟩ : Odb).isInAncestryPath 10 12
      = .error (.missingObject 11) := by
  refine ⟨?_, ?_, ?_, rfl⟩
  · intro o x
    simp [Odb.isInAncestryPath]
  · intro o x y hxy hc
    unfold Odb.isInAncestryPath
    rw [if_neg hxy]
    rw [if_pos (by
      rcases hc with h | h
      · exact Or.inl (by simp [h])
      · exact Or.inr (by simp [h]))]
  · intro o x y hcl hcx hcy
    by_cases hxy : x = y
    · subst hxy
      simp [Odb.isInAncestryPath]
      exact .refl x
    · unfold Odb.isInAncestryPath
      rw [if_neg hxy]
      rw [if_neg (by simp [hcx, hcy])]
      obtain ⟨b, hw, ht, hf⟩ := walk_spec o x y hcl hcx (o.allParents.length + 2) [x] [x]
        (by simp only [List.length_singleton]; omega)
        (List.nodup_singleton _)
        (by intro z hz; rw [List.mem_singleton] at hz; exact hz ▸ List.mem_cons_self _ _)
        (fun z hz => hz)
        (by intro z hz; rw [List.mem_singleton] at hz; subst hz; exact .refl _)
        (List.mem_singleton.mpr rfl)
        (fun z hz => .inl hz)
      rw [hw]
      constructor
      · intro h
        injection h with h
        exact ht h
      · intro hr
        cases hb : b with
        | false => exact absurd hr (hf hb)
        | true => rfl

/-- Witness for C5 amended: equal oids, an absent pair, and a concrete
parent edge certified through the characterisation. -/
theorem c5_ancestry_amended_witness :
    (⟨[(2, [1]), (1, [])]⟩ : Odb).isInAncestryPath 2 2 = .ok true
    ∧ (⟨[]⟩ : Odb).isInAncestryPath 1 2 = .ok false
    ∧ Reach (⟨[(2, [1]), (1, [])]⟩ : Odb) 2 1 :=
  ⟨c5_ancestry_amended.1 _ 2,
   c5_ancestry_amended.2.1 ⟨[]⟩ 1 2 (by decide) (Or.inl rfl),
   (c5_ancestry_amended.2.2.1 ⟨[(2, [1]), (1, [])]⟩ 2 1 (by rfl) (by rfl) (by rfl)).mp (by rfl)⟩

end Heartwood
